import Mathlib

/-!
Shallow embedding of the `optimize-images` batch pipeline (the script
`optimize-images.js`, in both its glob-discovery and worklist-discovery
variants) and proofs about its per-file transformer, orchestrator and
discovery components.

Modelling conventions:
* file contents are byte lists (`Bytes`); the on-disk size of a file is the
  length of its content;
* the filesystem is an association list from path strings to contents;
* the external codec operations (sharp's metadata probe, sharp's resize,
  imagemin's per-plugin recompression) are opaque oracles collected in `Env`;
  they are pure functions, so a deterministic collaborator is built in.
  `Except` results model thrown exceptions;
* the per-file transformer is translated as a function from the current
  content of the processed path to a trace of filesystem operations
  (`FsOp`), the emitted log lines and an error flag.  The source reads the
  filesystem only at the processed path, so this is the same state
  transformer as the stepwise original.
-/

namespace OptImages

abbrev Bytes := List Nat

abbrev FS := List (String × Bytes)

/-- Read a file: first binding of the path in the association list. -/
def FS.read : FS → String → Option Bytes
  | [], _ => none
  | (q, b) :: fs, p => if p = q then some b else FS.read fs p

/-- Remove every binding of a path (`fs.unlinkSync`). -/
def FS.erase : FS → String → FS
  | [], _ => []
  | (q, b) :: fs, p => if q = p then FS.erase fs p else (q, b) :: FS.erase fs p

/-- Write a file, replacing any previous binding (`fs.writeFileSync`). -/
def FS.write (fs : FS) (p : String) (b : Bytes) : FS := (p, b) :: FS.erase fs p

/-- A single filesystem mutation performed by the transformer. -/
inductive FsOp where
  | writeFile (p : String) (b : Bytes) : FsOp
  | deleteFile (p : String) : FsOp
  | rename (src dst : String) : FsOp
deriving DecidableEq, Repr

/-- The paths an operation can affect. -/
def FsOp.touches : FsOp → List String
  | .writeFile p _ => [p]
  | .deleteFile p => [p]
  | .rename s d => [s, d]

def applyOp (fs : FS) : FsOp → FS
  | .writeFile p b => FS.write fs p b
  | .deleteFile p => FS.erase fs p
  | .rename src dst =>
      match FS.read fs src with
      | some b => FS.write (FS.erase fs src) dst b
      | none => fs

def applyTrace (fs : FS) (t : List FsOp) : FS := t.foldl applyOp fs

/-! ### `path.extname(p).toLowerCase()` -/

/-- Characters of the basename: everything after the last slash. -/
def basenameChars (l : List Char) : List Char :=
  (l.reverse.takeWhile (fun c => c != '/')).reverse

/-- Characters of `path.extname`: from the last dot of the basename to the
end, empty when there is no dot or the only dot starts the basename
(dotfiles have no extension). -/
def extnameChars (l : List Char) : List Char :=
  let b := basenameChars l
  let r := b.reverse.takeWhile (fun c => c != '.')
  if r.length + 1 < b.length then '.' :: r.reverse else []

/-- `path.extname(p).toLowerCase()` as used by `processImage`. -/
def extLower (p : String) : String := ⟨(extnameChars p.data).map Char.toLower⟩

def MAX_WIDTH : Nat := 2500

def IMAGE_EXTENSIONS : List String := [".jpg", ".jpeg", ".png", ".gif", ".webp", ".svg"]

/-- The extensions admitted to the recompression block (the literal list on
the `if` guarding the imagemin step; note `.webp` is absent). -/
def COMPRESS_GATE : List String := [".jpg", ".jpeg", ".png", ".gif", ".svg"]

/-- The imagemin plugin chosen for an extension (the `plugins.push` chain,
including the `.webp` branch even though the surrounding gate never lets a
`.webp` file reach it). -/
inductive Plugin where
  | mozjpeg | pngquant | gifsicle | svgo | webpPlugin
deriving DecidableEq, Repr

def pluginFor (ext : String) : Option Plugin :=
  if ext = ".jpg" ∨ ext = ".jpeg" then some .mozjpeg
  else if ext = ".png" then some .pngquant
  else if ext = ".gif" then some .gifsicle
  else if ext = ".svg" then some .svgo
  else if ext = ".webp" then some .webpPlugin
  else none

/-- External collaborators.  `probe` is sharp's metadata width (given the
path and current content), `resizeSharp` is sharp's resize-to-temp write: on
failure it reports the partially written temp content (if any) and the error
message; `compress` is imagemin's buffer recompression for a plugin. -/
structure Env where
  probe : String → Bytes → Except String Nat
  resizeSharp : String → Bytes → Except (Option Bytes × String) Bytes
  compress : Plugin → Bytes → Except String Bytes

/-- Console lines emitted while processing one file. -/
inductive Log where
  | processing (p : String) : Log
  | widthOk (w : Nat) : Log
  | resizing (w : Nat) : Log
  | optimized (oldSize newSize : Nat) : Log
  | keepOriginal : Log
  | completed (p : String) : Log
  | errorProcessing (p : String) (msg : String) : Log
deriving DecidableEq, Repr

/-- Outcome of (part of) one `processImage` call: filesystem operations in
order, log lines, and whether the surrounding `catch` was entered. -/
structure StepOut where
  ops : List FsOp
  logs : List Log
  errored : Bool
deriving DecidableEq, Repr

/-- The recompression block (gate over `COMPRESS_GATE`, plugin selection,
`imagemin.buffer`, conditional overwrite) followed by the final
`Completed processing` log.  `cur` is the on-disk content of `imagePath`
when the block starts. -/
def compressAt (env : Env) (imagePath ext : String) (cur : Bytes) : StepOut :=
  if ext ∈ COMPRESS_GATE then
    let originalSize := cur.length
    match pluginFor ext with
    | none => ⟨[], [Log.completed imagePath], false⟩
    | some pl =>
      match env.compress pl cur with
      | .error e => ⟨[], [Log.errorProcessing imagePath e], true⟩
      | .ok buf =>
        if buf.length < originalSize then
          ⟨[FsOp.writeFile imagePath buf],
           [Log.optimized originalSize buf.length, Log.completed imagePath], false⟩
        else
          ⟨[], [Log.keepOriginal, Log.completed imagePath], false⟩
  else ⟨[], [Log.completed imagePath], false⟩

/-- One `processImage(imagePath)` call, as a function of the current content
of `imagePath` (`none` models a missing file, on which sharp throws). -/
def processImageAt (env : Env) (imagePath : String) (content? : Option Bytes) : StepOut :=
  let ext := extLower imagePath
  if ext ∈ IMAGE_EXTENSIONS then
    match content? with
    | none => ⟨[], [Log.processing imagePath, Log.errorProcessing imagePath "ENOENT"], true⟩
    | some content =>
      match env.probe imagePath content with
      | .error e => ⟨[], [Log.processing imagePath, Log.errorProcessing imagePath e], true⟩
      | .ok width =>
        let widthLog := if width ≤ MAX_WIDTH then Log.widthOk width else Log.resizing width
        let tempPath := imagePath ++ ".temp"
        if width > MAX_WIDTH then
          match env.resizeSharp imagePath content with
          | .error (halfDone, msg) =>
            let ops := match halfDone with
              | some b => [FsOp.writeFile tempPath b]
              | none => []
            ⟨ops, [Log.processing imagePath, widthLog, Log.errorProcessing imagePath msg], true⟩
          | .ok resized =>
            let s := compressAt env imagePath ext resized
            ⟨FsOp.writeFile tempPath resized :: FsOp.deleteFile imagePath ::
               FsOp.rename tempPath imagePath :: s.ops,
             Log.processing imagePath :: widthLog :: s.logs, s.errored⟩
        else
          let s := compressAt env imagePath ext content
          ⟨s.ops, Log.processing imagePath :: widthLog :: s.logs, s.errored⟩
  else ⟨[], [], false⟩

structure PIResult where
  fs : FS
  trace : List FsOp
  logs : List Log
  errored : Bool
deriving DecidableEq, Repr

/-- `processImage` acting on the filesystem. -/
def processImage (env : Env) (fs : FS) (imagePath : String) : PIResult :=
  let s := processImageAt env imagePath (FS.read fs imagePath)
  ⟨applyTrace fs s.ops, s.ops, s.logs, s.errored⟩

/-- The temporary path used by the resize step. -/
def tempOf (p : String) : String := p ++ ".temp"

/-! ### Basic filesystem lemmas -/

theorem read_erase_self (fs : FS) (p : String) : FS.read (FS.erase fs p) p = none := by
  induction fs with
  | nil => rfl
  | cons e fs ih =>
    obtain ⟨q, b⟩ := e
    by_cases h : q = p
    · simp [FS.erase, h, ih]
    · simp [FS.erase, FS.read, h, Ne.symm h, ih]

theorem read_erase_ne (fs : FS) (p q : String) (h : q ≠ p) :
    FS.read (FS.erase fs p) q = FS.read fs q := by
  induction fs with
  | nil => rfl
  | cons e fs ih =>
    obtain ⟨r, b⟩ := e
    by_cases hr : r = p
    · subst hr
      simp [FS.erase, FS.read, h, ih]
    · by_cases hq : q = r
      · simp [FS.erase, FS.read, hr, hq]
      · simp [FS.erase, FS.read, hr, hq, ih]

theorem read_write_self (fs : FS) (p : String) (b : Bytes) :
    FS.read (FS.write fs p b) p = some b := by
  simp [FS.write, FS.read]

theorem read_write_ne (fs : FS) (p q : String) (b : Bytes) (h : q ≠ p) :
    FS.read (FS.write fs p b) q = FS.read fs q := by
  simp [FS.write, FS.read, h, read_erase_ne fs p q h]

theorem read_applyOp_notTouched (fs : FS) (op : FsOp) (q : String)
    (h : q ∉ op.touches) : FS.read (applyOp fs op) q = FS.read fs q := by
  cases op with
  | writeFile p b =>
    simp [FsOp.touches] at h
    simp [applyOp, read_write_ne fs p q b h]
  | deleteFile p =>
    simp [FsOp.touches] at h
    simp [applyOp, read_erase_ne fs p q h]
  | rename s d =>
    simp [FsOp.touches] at h
    cases hr : FS.read fs s with
    | none => simp [applyOp, hr]
    | some b =>
      simp [applyOp, hr, read_write_ne _ d q b h.2, read_erase_ne fs s q h.1]

theorem read_applyTrace_notTouched (t : List FsOp) (fs : FS) (q : String)
    (h : ∀ op ∈ t, q ∉ op.touches) : FS.read (applyTrace fs t) q = FS.read fs q := by
  induction t generalizing fs with
  | nil => rfl
  | cons op t ih =>
    have h1 := h op (by simp)
    have h2 : ∀ op2 ∈ t, q ∉ op2.touches := fun op2 hm => h op2 (by simp [hm])
    simp only [applyTrace, List.foldl_cons]
    rw [show (List.foldl applyOp (applyOp fs op) t) = applyTrace (applyOp fs op) t from rfl]
    rw [ih (applyOp fs op) h2, read_applyOp_notTouched fs op q h1]

theorem applyTrace_nil (fs : FS) : applyTrace fs [] = fs := rfl

theorem tempOf_ne (p : String) : tempOf p ≠ p := by
  intro h
  have := congrArg String.length h
  simp [tempOf] at this
  exact absurd this (by decide)

/-- The compress block writes nothing, or writes exactly one strictly
smaller recompressed buffer over the processed path. -/
theorem compressAt_ops (env : Env) (p ext : String) (cur : Bytes) :
    (compressAt env p ext cur).ops = [] ∨
    ∃ c, (compressAt env p ext cur).ops = [FsOp.writeFile p c] ∧
      c.length < cur.length := by
  unfold compressAt
  by_cases hg : ext ∈ COMPRESS_GATE
  · simp only [if_pos hg]
    cases hpl : pluginFor ext with
    | none => left; rfl
    | some pl =>
      cases hc : env.compress pl cur with
      | error e => left; simp [hc]
      | ok buf =>
        by_cases hlt : buf.length < cur.length
        · right; exact ⟨buf, by simp [hc, hlt], hlt⟩
        · left; simp [hc, hlt]
  · simp [hg]

/-! ### Concrete fixtures used by witnesses -/

def envA : Env where
  probe := fun p _ =>
    if p = "bad.jpg" then .error "corrupt"
    else if p = "wide.jpg" ∨ p = "wideok.jpg" then .ok 3000
    else .ok 100
  resizeSharp := fun p _ =>
    if p = "wideok.jpg" then .ok [9] else .error (some [7], "boom")
  compress := fun _ b => if b = [5] then .ok [5, 5] else .ok b.tail

def fsA : FS :=
  [("a.jpg", [1, 2, 3]), ("bad.jpg", [9]), ("c.jpg", [1, 2, 3]),
   ("wide.jpg", [1, 1, 1, 1]), ("wideok.jpg", [1, 1, 1, 1]),
   ("same.png", [5]), ("photo.webp", [1, 2, 3])]

/-! ### Claims about the single-image transformer -/

/-- C10: a path whose lowercase extension is not recognized makes
`processImage` return before any probe or filesystem operation: no trace, no
logs, no error, filesystem unchanged. -/
theorem claim_C10 (env : Env) (fs : FS) (p : String)
    (h : extLower p ∉ IMAGE_EXTENSIONS) :
    processImage env fs p = ⟨fs, [], [], false⟩ := by
  simp [processImage, processImageAt, h, applyTrace_nil]

theorem claim_C10_witness :
    extLower "notes.txt" ∉ IMAGE_EXTENSIONS ∧
      processImage envA fsA "notes.txt" = ⟨fsA, [], [], false⟩ :=
  ⟨by decide, claim_C10 envA fsA "notes.txt" (by decide)⟩

/-- C3: the claim says a `.webp` file is recompressed at quality 80, but a
`.webp` file that needs no resize is left completely untouched: the gate
list of the recompression block omits `.webp`, so the `.webp` plugin branch
(`pluginFor ".webp" = some webpPlugin`) is dead code even though `.webp` is
a recognized extension.  This contradicts the program's own README, which
promises WebP optimization. -/
theorem claim_C3 (env : Env) (fs : FS) (p : String) (content : Bytes) (w : Nat)
    (hext : extLower p = ".webp") (hc : FS.read fs p = some content)
    (hw : env.probe p content = .ok w) (hsmall : w ≤ MAX_WIDTH) :
    (processImage env fs p).fs = fs ∧ (processImage env fs p).trace = [] ∧
      pluginFor ".webp" = some Plugin.webpPlugin ∧
      ".webp" ∈ IMAGE_EXTENSIONS ∧ ".webp" ∉ COMPRESS_GATE := by
  have hmem : extLower p ∈ IMAGE_EXTENSIONS := by rw [hext]; decide
  have hng : ¬ MAX_WIDTH < w := by omega
  refine ⟨?_, ?_, by decide, by decide, by decide⟩ <;>
    simp [processImage, processImageAt, hmem, hext, hc, hw, hsmall, hng,
      compressAt, applyTrace_nil, show (".webp" : String) ∉ COMPRESS_GATE by decide,
      show (".webp" : String) ∈ IMAGE_EXTENSIONS by decide]

theorem claim_C3_witness :
    extLower "photo.webp" = ".webp" ∧
      FS.read fsA "photo.webp" = some [1, 2, 3] ∧
      envA.probe "photo.webp" [1, 2, 3] = .ok 100 ∧ 100 ≤ MAX_WIDTH ∧
      ((processImage envA fsA "photo.webp").fs = fsA ∧
        (processImage envA fsA "photo.webp").trace = [] ∧
        pluginFor ".webp" = some Plugin.webpPlugin ∧
        ".webp" ∈ IMAGE_EXTENSIONS ∧ ".webp" ∉ COMPRESS_GATE) :=
  ⟨by decide, by decide, by rfl, by decide,
    claim_C3 envA fsA "photo.webp" [1, 2, 3] 100 (by decide) (by decide)
      (by rfl) (by decide)⟩

/-- C9: a file that is already at most `MAX_WIDTH` wide and already
optimized (recompressing its content does not strictly shrink it) is left
byte-identical: `processImage` performs no filesystem operation at all, so a
second run over an already-optimized tree changes nothing.  The oracles in
`Env` are pure functions, so the assumed determinism of the external resizer
and compressors is built into the model. -/
theorem claim_C9 (env : Env) (fs : FS) (p : String) (b : Bytes) (w : Nat)
    (hc : FS.read fs p = some b) (hw : env.probe p b = .ok w)
    (hsmall : w ≤ MAX_WIDTH)
    (hopt : ∀ pl c, pluginFor (extLower p) = some pl →
      env.compress pl b = .ok c → b.length ≤ c.length) :
    (processImage env fs p).fs = fs ∧ (processImage env fs p).trace = [] := by
  by_cases hmem : extLower p ∈ IMAGE_EXTENSIONS
  · have hng : ¬ MAX_WIDTH < w := by omega
    have hops : (compressAt env p (extLower p) b).ops = [] := by
      unfold compressAt
      by_cases hg : extLower p ∈ COMPRESS_GATE
      · simp only [if_pos hg]
        cases hpl : pluginFor (extLower p) with
        | none => rfl
        | some pl =>
          cases hcc : env.compress pl b with
          | error e => simp [hcc]
          | ok c =>
            have := hopt pl c hpl hcc
            simp [hcc, show ¬ c.length < b.length by omega]
      · simp [hg]
    constructor <;>
      simp [processImage, processImageAt, hmem, hc, hw, hsmall, hng, hops,
        applyTrace_nil]
  · have := claim_C10 env fs p hmem
    constructor <;> simp [this]

theorem claim_C9_witness :
    FS.read fsA "same.png" = some [5] ∧ envA.probe "same.png" [5] = .ok 100 ∧
      100 ≤ MAX_WIDTH ∧
      ((processImage envA fsA "same.png").fs = fsA ∧
        (processImage envA fsA "same.png").trace = []) :=
  ⟨by decide, by rfl, by decide,
    claim_C9 envA fsA "same.png" [5] 100 (by decide) (by rfl) (by decide)
      (by intro pl c hpl hcc
          have hcv : c = [5, 5] := by simpa [envA] using hcc.symm
          subst hcv
          decide)⟩

/-- C2: for any on-disk state just before the recompression block, the
recompressed buffer is committed exactly when it is strictly smaller than
the current size; otherwise the file is left unchanged and the
`keeping original` line is logged, so the final size never exceeds the size
just before the conditional commit. -/
theorem claim_C2 (env : Env) (fs : FS) (p ext : String) (cur : Bytes)
    (hc : FS.read fs p = some cur) :
    (∃ b2, FS.read (applyTrace fs (compressAt env p ext cur).ops) p = some b2 ∧
       b2.length ≤ cur.length) ∧
    (∀ q, q ≠ p →
       FS.read (applyTrace fs (compressAt env p ext cur).ops) q = FS.read fs q) ∧
    (∀ pl c, ext ∈ COMPRESS_GATE → pluginFor ext = some pl →
       env.compress pl cur = .ok c →
       (c.length < cur.length →
          (compressAt env p ext cur).ops = [FsOp.writeFile p c] ∧
          applyTrace fs (compressAt env p ext cur).ops = FS.write fs p c) ∧
       (¬ c.length < cur.length →
          (compressAt env p ext cur).ops = [] ∧
          applyTrace fs (compressAt env p ext cur).ops = fs ∧
          Log.keepOriginal ∈ (compressAt env p ext cur).logs)) := by
  have hops := compressAt_ops env p ext cur
  refine ⟨?_, ?_, ?_⟩
  · rcases hops with h0 | ⟨c, hc1, hlen⟩
    · exact ⟨cur, by simp [h0, applyTrace_nil, hc], le_refl _⟩
    · refine ⟨c, ?_, by omega⟩
      simp [hc1, applyTrace, applyOp, read_write_self]
  · intro q hq
    rcases hops with h0 | ⟨c, hc1, hlen⟩
    · simp [h0, applyTrace_nil]
    · simp [hc1, applyTrace, applyOp, read_write_ne fs p q c hq]
  · intro pl c hg hpl hcc
    constructor
    · intro hlt
      have h1 : (compressAt env p ext cur).ops = [FsOp.writeFile p c] := by
        unfold compressAt
        simp [hg, hpl, hcc, hlt]
      exact ⟨h1, by simp [h1, applyTrace, applyOp]⟩
    · intro hlt
      have h1 : (compressAt env p ext cur).ops = [] := by
        unfold compressAt
        simp [hg, hpl, hcc, hlt]
      have h2 : Log.keepOriginal ∈ (compressAt env p ext cur).logs := by
        unfold compressAt
        simp [hg, hpl, hcc, hlt]
      exact ⟨h1, by simp [h1, applyTrace_nil], h2⟩

theorem claim_C2_witness :
    FS.read fsA "a.jpg" = some [1, 2, 3] ∧
      ((∃ b2, FS.read (applyTrace fsA (compressAt envA "a.jpg" ".jpg" [1, 2, 3]).ops) "a.jpg" =
          some b2 ∧ b2.length ≤ 3) ∧
       (∀ q, q ≠ "a.jpg" →
          FS.read (applyTrace fsA (compressAt envA "a.jpg" ".jpg" [1, 2, 3]).ops) q =
            FS.read fsA q) ∧
       (∀ pl c, ".jpg" ∈ COMPRESS_GATE → pluginFor ".jpg" = some pl →
          envA.compress pl [1, 2, 3] = .ok c →
          (c.length < 3 →
             (compressAt envA "a.jpg" ".jpg" [1, 2, 3]).ops = [FsOp.writeFile "a.jpg" c] ∧
             applyTrace fsA (compressAt envA "a.jpg" ".jpg" [1, 2, 3]).ops =
               FS.write fsA "a.jpg" c) ∧
          (¬ c.length < 3 →
             (compressAt envA "a.jpg" ".jpg" [1, 2, 3]).ops = [] ∧
             applyTrace fsA (compressAt envA "a.jpg" ".jpg" [1, 2, 3]).ops = fsA ∧
             Log.keepOriginal ∈ (compressAt envA "a.jpg" ".jpg" [1, 2, 3]).logs))) :=
  ⟨by decide, claim_C2 envA fsA "a.jpg" ".jpg" [1, 2, 3] (by decide)⟩

/-- C1: for a recognized file whose probe succeeds: the temp path differs
from the original; when the width exceeds `MAX_WIDTH` and the resize write
succeeds, the trace writes the temp file first and only then deletes the
original and renames the temp over it (everything after touches only the
original path); when the resize write fails or is interrupted, the original
content is byte-identical to its pre-run state and every path other than
the temp path is untouched; and when the width is within the bound, every
emitted operation is a plain write to the original (no temp file, no
delete, no rename). -/
theorem claim_C1 (env : Env) (fs : FS) (p : String) (content : Bytes) (w : Nat)
    (hext : extLower p ∈ IMAGE_EXTENSIONS) (hc : FS.read fs p = some content)
    (hw : env.probe p content = .ok w) :
    tempOf p ≠ p ∧
    (MAX_WIDTH < w → ∀ rz, env.resizeSharp p content = .ok rz →
       ∃ rest, (processImage env fs p).trace =
         FsOp.writeFile (tempOf p) rz :: FsOp.deleteFile p ::
           FsOp.rename (tempOf p) p :: rest ∧
         ∀ op ∈ rest, op.touches = [p]) ∧
    (MAX_WIDTH < w → ∀ hd msg, env.resizeSharp p content = .error (hd, msg) →
       FS.read (processImage env fs p).fs p = some content ∧
       (∀ q, q ≠ tempOf p → FS.read (processImage env fs p).fs q = FS.read fs q) ∧
       (processImage env fs p).errored = true) ∧
    (w ≤ MAX_WIDTH → ∀ op ∈ (processImage env fs p).trace,
       ∃ b, op = FsOp.writeFile p b) := by
  refine ⟨tempOf_ne p, ?_, ?_, ?_⟩
  · intro hgt rz hrz
    have ht : (processImage env fs p).trace =
        FsOp.writeFile (tempOf p) rz :: FsOp.deleteFile p ::
          FsOp.rename (tempOf p) p :: (compressAt env p (extLower p) rz).ops := by
      simp [processImage, processImageAt, hext, hc, hw, hrz, hgt, tempOf,
        show ¬ w ≤ MAX_WIDTH by omega]
    refine ⟨(compressAt env p (extLower p) rz).ops, ht, ?_⟩
    rcases compressAt_ops env p (extLower p) rz with h0 | ⟨c, hc1, hlen⟩
    · simp [h0]
    · simp [hc1, FsOp.touches]
  · intro hgt hd msg hrz
    have hfs : (processImage env fs p).fs = applyTrace fs (processImage env fs p).trace := by
      simp [processImage]
    have hframe : ∀ q, q ≠ tempOf p →
        FS.read (processImage env fs p).fs q = FS.read fs q := by
      intro q hq
      rw [hfs]
      cases hd with
      | none =>
        have hops : (processImage env fs p).trace = [] := by
          simp [processImage, processImageAt, hext, hc, hw, hrz, hgt,
            show ¬ w ≤ MAX_WIDTH by omega]
        rw [hops]
        rfl
      | some b =>
        have hops : (processImage env fs p).trace = [FsOp.writeFile (tempOf p) b] := by
          simp [processImage, processImageAt, hext, hc, hw, hrz, hgt, tempOf,
            show ¬ w ≤ MAX_WIDTH by omega]
        rw [hops]
        simp [applyTrace, applyOp, read_write_ne _ _ _ _ hq]
    refine ⟨?_, hframe, ?_⟩
    · rw [hframe p (fun he => tempOf_ne p he.symm)]
      exact hc
    · simp [processImage, processImageAt, hext, hc, hw, hrz, hgt,
        show ¬ w ≤ MAX_WIDTH by omega]
  · intro hle op hop
    have ht : (processImage env fs p).trace = (compressAt env p (extLower p) content).ops := by
      simp [processImage, processImageAt, hext, hc, hw, hle,
        show ¬ MAX_WIDTH < w by omega]
    rw [ht] at hop
    rcases compressAt_ops env p (extLower p) content with h0 | ⟨c, hc1⟩
    · simp [h0] at hop
    · simp [hc1] at hop
      exact ⟨c, hop⟩

theorem claim_C1_witness :
    (extLower "wide.jpg" ∈ IMAGE_EXTENSIONS ∧
       FS.read fsA "wide.jpg" = some [1, 1, 1, 1] ∧
       envA.probe "wide.jpg" [1, 1, 1, 1] = .ok 3000 ∧ MAX_WIDTH < 3000 ∧
       envA.resizeSharp "wide.jpg" [1, 1, 1, 1] = .error (some [7], "boom") ∧
       FS.read (processImage envA fsA "wide.jpg").fs "wide.jpg" = some [1, 1, 1, 1] ∧
       (processImage envA fsA "wide.jpg").errored = true) ∧
    (envA.resizeSharp "wideok.jpg" [1, 1, 1, 1] = .ok [9] ∧
       ∃ rest, (processImage envA fsA "wideok.jpg").trace =
         FsOp.writeFile (tempOf "wideok.jpg") [9] :: FsOp.deleteFile "wideok.jpg" ::
           FsOp.rename (tempOf "wideok.jpg") "wideok.jpg" :: rest ∧
         ∀ op ∈ rest, op.touches = ["wideok.jpg"]) := by
  constructor
  · have h := claim_C1 envA fsA "wide.jpg" [1, 1, 1, 1] 3000 (by decide) (by decide) (by rfl)
    have h3 := h.2.2.1 (by decide) (some [7]) "boom" (by rfl)
    exact ⟨by decide, by decide, by rfl, by decide, by rfl, h3.1, h3.2.2⟩
  · have h := claim_C1 envA fsA "wideok.jpg" [1, 1, 1, 1] 3000 (by decide) (by decide) (by rfl)
    exact ⟨by rfl, h.2.1 (by decide) [9] (by rfl)⟩

/-! ### Orchestrator: serial loop and batched loop -/

/-- The serial loop of the glob variant: process each discovered file in
order, threading the filesystem; the boolean list records, per file in
order, whether its processing entered the per-file catch. -/
def runFiles (env : Env) : FS → List String → FS × List Bool
  | fs, [] => (fs, [])
  | fs, p :: rest =>
    let r := processImage env fs p
    let s := runFiles env r.fs rest
    (s.1, r.errored :: s.2)

/-- Successive slices of ten files (`for i += batchSize; slice(i, i+10)`). -/
def chunk10 : List String → List (List String)
  | [] => []
  | a :: l => ((a :: l).take 10) :: chunk10 ((a :: l).drop 10)
termination_by l => l.length
decreasing_by simp; omega

/-- Processing the batches in order, inner loop per batch. -/
def runBatches (env : Env) : FS → List (List String) → FS × List Bool
  | fs, [] => (fs, [])
  | fs, b :: bs =>
    let r := runFiles env fs b
    let s := runBatches env r.1 bs
    (s.1, r.2 ++ s.2)

/-- The batched orchestrator of the worklist variant. -/
def runBatched (env : Env) (fs : FS) (files : List String) : FS × List Bool :=
  runBatches env fs (chunk10 files)

theorem runFiles_append (env : Env) (a b : List String) (fs : FS) :
    runFiles env fs (a ++ b) =
      ((runFiles env (runFiles env fs a).1 b).1,
       (runFiles env fs a).2 ++ (runFiles env (runFiles env fs a).1 b).2) := by
  induction a generalizing fs with
  | nil => simp [runFiles]
  | cons p rest ih => simp [runFiles, ih]

theorem chunk10_flatten (l : List String) : (chunk10 l).flatten = l := by
  induction l using chunk10.induct with
  | case1 => simp [chunk10]
  | case2 a l ih =>
    rw [chunk10]
    simp only [List.flatten_cons, ih]
    exact List.take_append_drop 10 (a :: l)

/-- C7: batching into groups of ten is invisible to the filesystem and to
the per-file outcomes: the batched orchestrator equals the plain serial
loop on every input (same files, same order, same effects); only the log
lines around the batches differ. -/
theorem claim_C7 (env : Env) (fs : FS) (files : List String) :
    runBatched env fs files = runFiles env fs files := by
  have h : ∀ bs : List (List String), ∀ fs2 : FS,
      runBatches env fs2 bs = runFiles env fs2 bs.flatten := by
    intro bs
    induction bs with
    | nil => intro fs2; rfl
    | cons b rest ih =>
      intro fs2
      simp [runBatches, ih, List.flatten_cons, runFiles_append]
  rw [runBatched, h, chunk10_flatten]

/-! ### Per-file frame properties and failure isolation -/

/-- Shape of the operation trace of one `processImage` call. -/
theorem processImageAt_ops_cases (env : Env) (p : String) (c? : Option Bytes) :
    (processImageAt env p c?).ops = [] ∨
    (∃ b, (processImageAt env p c?).ops = [FsOp.writeFile (tempOf p) b]) ∨
    (∃ rz rest, (processImageAt env p c?).ops =
       FsOp.writeFile (tempOf p) rz :: FsOp.deleteFile p ::
         FsOp.rename (tempOf p) p :: rest ∧
       (rest = [] ∨ ∃ c, rest = [FsOp.writeFile p c])) ∨
    (∃ c, (processImageAt env p c?).ops = [FsOp.writeFile p c]) := by
  by_cases hext : extLower p ∈ IMAGE_EXTENSIONS
  · cases c? with
    | none => left; simp [processImageAt, hext]
    | some content =>
      cases hpr : env.probe p content with
      | error e => left; simp [processImageAt, hext, hpr]
      | ok w =>
        by_cases hgt : MAX_WIDTH < w
        · cases hrz : env.resizeSharp p content with
          | error pr =>
            obtain ⟨hd, msg⟩ := pr
            cases hd with
            | none => left; simp [processImageAt, hext, hpr, hrz, hgt]
            | some b =>
              right; left
              exact ⟨b, by simp [processImageAt, hext, hpr, hrz, hgt, tempOf]⟩
          | ok rz =>
            right; right; left
            refine ⟨rz, (compressAt env p (extLower p) rz).ops,
              by simp [processImageAt, hext, hpr, hrz, hgt, tempOf], ?_⟩
            rcases compressAt_ops env p (extLower p) rz with h0 | ⟨c, hc1, hlen⟩
            · left; exact h0
            · right; exact ⟨c, hc1⟩
        · have hops : (processImageAt env p (some content)).ops =
              (compressAt env p (extLower p) content).ops := by
            simp [processImageAt, hext, hpr, hgt]
          rcases compressAt_ops env p (extLower p) content with h0 | ⟨c, hc1, hlen⟩
          · left; rw [hops]; exact h0
          · right; right; right; exact ⟨c, by rw [hops]; exact hc1⟩
  · left; simp [processImageAt, hext]

theorem processImageAt_touches (env : Env) (p : String) (c? : Option Bytes) :
    ∀ op ∈ (processImageAt env p c?).ops, ∀ q ∈ op.touches,
      q = p ∨ q = tempOf p := by
  rcases processImageAt_ops_cases env p c? with h | ⟨b, h⟩ | ⟨rz, rest, h, hrest⟩ | ⟨c, h⟩ <;>
    rw [h]
  · simp
  · intro op hop q hq
    simp at hop
    subst hop
    simp [FsOp.touches] at hq
    right; exact hq
  · intro op hop q hq
    simp at hop
    rcases hop with rfl | rfl | rfl | hop
    · simp [FsOp.touches] at hq; right; exact hq
    · simp [FsOp.touches] at hq; left; exact hq
    · simp [FsOp.touches] at hq
      rcases hq with rfl | rfl
      · right; rfl
      · left; rfl
    · rcases hrest with rfl | ⟨c, rfl⟩
      · simp at hop
      · simp at hop
        subst hop
        simp [FsOp.touches] at hq
        left; exact hq
  · intro op hop q hq
    simp at hop
    subst hop
    simp [FsOp.touches] at hq
    left; exact hq

/-- One `processImage` call never touches any path other than the processed
file and its temp sibling. -/
theorem processImage_frame (env : Env) (fs : FS) (p q : String)
    (h1 : q ≠ p) (h2 : q ≠ tempOf p) :
    FS.read (processImage env fs p).fs q = FS.read fs q := by
  have htch := processImageAt_touches env p (FS.read fs p)
  have : ∀ op ∈ (processImageAt env p (FS.read fs p)).ops, q ∉ op.touches := by
    intro op hop hq
    rcases htch op hop q hq with rfl | rfl
    · exact h1 rfl
    · exact h2 rfl
  simpa [processImage] using read_applyTrace_notTouched _ fs q this

/-- Two paths are independent when neither is the other or the other's temp
sibling. -/
abbrev Indep (a b : String) : Prop := a ≠ b ∧ a ≠ tempOf b ∧ b ≠ tempOf a

theorem runFiles_frame (env : Env) (l : List String) (fs : FS) (q : String)
    (h : ∀ p ∈ l, q ≠ p ∧ q ≠ tempOf p) :
    FS.read (runFiles env fs l).1 q = FS.read fs q := by
  induction l generalizing fs with
  | nil => rfl
  | cons p rest ih =>
    have hp := h p (by simp)
    simp only [runFiles]
    rw [ih (processImage env fs p).fs (fun x hx => h x (by simp [hx]))]
    exact processImage_frame env fs p q hp.1 hp.2

theorem runFiles_flags_good (env : Env) (l : List String) (fs0 : FS) :
    ∀ fs : FS, (∀ p ∈ l, FS.read fs p = FS.read fs0 p) → l.Pairwise Indep →
    (∀ p ∈ l, (processImageAt env p (FS.read fs0 p)).errored = false) →
    (runFiles env fs l).2 = l.map (fun _ => false) := by
  induction l with
  | nil => intro fs _ _ _; rfl
  | cons p rest ih =>
    intro fs hr hp hg
    have hflag : (processImage env fs p).errored = false := by
      simp only [processImage]
      rw [hr p (by simp)]
      exact hg p (by simp)
    have hpair := (List.pairwise_cons.mp hp)
    have hrest : ∀ x ∈ rest, FS.read (processImage env fs p).fs x = FS.read fs0 x := by
      intro x hx
      have hind := hpair.1 x hx
      rw [processImage_frame env fs p x (Ne.symm hind.1) hind.2.2]
      exact hr x (by simp [hx])
    simp only [runFiles, List.map_cons]
    rw [ih (processImage env fs p).fs hrest hpair.2 (fun x hx => hg x (by simp [hx])),
      hflag]

/-- A recognized file whose probe throws is a no-op with an error report. -/
theorem processImageAt_probeFail (env : Env) (p : String) (c? : Option Bytes)
    (hext : extLower p ∈ IMAGE_EXTENSIONS)
    (hbad : ∀ b, c? = some b → ∃ e, env.probe p b = .error e) :
    (processImageAt env p c?).ops = [] ∧
      (processImageAt env p c?).errored = true := by
  cases c? with
  | none => constructor <;> simp [processImageAt, hext]
  | some b =>
    obtain ⟨e, he⟩ := hbad b rfl
    constructor <;> simp [processImageAt, hext, he]

/-- C4: in a batch where exactly one file is corrupt (its probe throws; all
other files process without error and no two files alias each other or each
other's temp path), the serial loop still processes every file, reports the
failure exactly for the corrupt file, and produces the same filesystem as
the run without the corrupt file. -/
theorem claim_C4 (env : Env) (fs : FS) (pre post : List String) (pk : String)
    (hp : (pre ++ pk :: post).Pairwise Indep)
    (hkext : extLower pk ∈ IMAGE_EXTENSIONS)
    (hkbad : ∀ b, FS.read fs pk = some b → ∃ e, env.probe pk b = .error e)
    (hg : ∀ p ∈ pre ++ post, (processImageAt env p (FS.read fs p)).errored = false) :
    (runFiles env fs (pre ++ pk :: post)).2 =
      pre.map (fun _ => false) ++ true :: post.map (fun _ => false) ∧
    (runFiles env fs (pre ++ pk :: post)).1 = (runFiles env fs (pre ++ post)).1 ∧
    (runFiles env fs (pre ++ pk :: post)).2.count true = 1 ∧
    (runFiles env fs (pre ++ pk :: post)).2.length = (pre ++ pk :: post).length := by
  have hpre : pre.Pairwise Indep := (List.pairwise_append.mp hp).1
  have hmid := (List.pairwise_append.mp hp).2.2
  have hpost : post.Pairwise Indep :=
    (List.pairwise_cons.mp (List.pairwise_append.mp hp).2.1).2
  have hkpost := (List.pairwise_cons.mp (List.pairwise_append.mp hp).2.1).1
  -- the filesystem after the prefix reads identically at pk and at post paths
  have hfs1 : ∀ x, (∀ p ∈ pre, Indep p x) →
      FS.read (runFiles env fs pre).1 x = FS.read fs x := by
    intro x hx
    exact runFiles_frame env pre fs x
      (fun p hpm => ⟨Ne.symm (hx p hpm).1, (hx p hpm).2.2⟩)
  have hreadpk : FS.read (runFiles env fs pre).1 pk = FS.read fs pk :=
    hfs1 pk (fun p hpm => hmid p hpm pk (by simp))
  have hkstep := processImageAt_probeFail env pk (FS.read (runFiles env fs pre).1 pk)
    hkext (by rw [hreadpk]; exact hkbad)
  have hkfs : (processImage env (runFiles env fs pre).1 pk).fs = (runFiles env fs pre).1 := by
    simp [processImage, hkstep.1, applyTrace_nil]
  have hkflag : (processImage env (runFiles env fs pre).1 pk).errored = true := by
    simp [processImage, hkstep.2]
  have hpostread : ∀ x ∈ post, FS.read (runFiles env fs pre).1 x = FS.read fs x := by
    intro x hx
    exact hfs1 x (fun p hpm => hmid p hpm x (by simp [hx]))
  have hpreflags : (runFiles env fs pre).2 = pre.map (fun _ => false) :=
    runFiles_flags_good env pre fs fs (fun p _ => rfl) hpre
      (fun p hpm => hg p (by simp [hpm]))
  have hpostflags :
      (runFiles env (processImage env (runFiles env fs pre).1 pk).fs post).2 =
        post.map (fun _ => false) := by
    rw [hkfs]
    exact runFiles_flags_good env post fs (runFiles env fs pre).1 hpostread hpost
      (fun p hpm => hg p (by simp [hpm]))
  have hmain : runFiles env fs (pre ++ pk :: post) =
      ((runFiles env (processImage env (runFiles env fs pre).1 pk).fs post).1,
       (runFiles env fs pre).2 ++ (processImage env (runFiles env fs pre).1 pk).errored ::
         (runFiles env (processImage env (runFiles env fs pre).1 pk).fs post).2) := by
    rw [runFiles_append]
    simp [runFiles]
  have hother : runFiles env fs (pre ++ post) =
      ((runFiles env (runFiles env fs pre).1 post).1,
       (runFiles env fs pre).2 ++ (runFiles env (runFiles env fs pre).1 post).2) := by
    rw [runFiles_append]
  refine ⟨?_, ?_, ?_, ?_⟩
  · rw [hmain]
    simp only [hpreflags, hkflag, hpostflags]
  · rw [hmain, hother, hkfs]
  · rw [hmain]
    have hcount : ∀ n : List String, (n.map (fun _ => false)).count true = 0 := by
      intro n
      simp [List.count_eq_zero, List.mem_map]
    simp [hpreflags, hkflag, hpostflags, List.count_append, List.count_cons, hcount,
      List.count_replicate]
  · rw [hmain]
    simp [hpreflags, hpostflags]

theorem claim_C4_witness :
    (["a.jpg", "bad.jpg", "c.jpg"] : List String).Pairwise Indep ∧
      extLower "bad.jpg" ∈ IMAGE_EXTENSIONS ∧
      ((runFiles envA fsA ["a.jpg", "bad.jpg", "c.jpg"]).2 = [false, true, false] ∧
       (runFiles envA fsA ["a.jpg", "bad.jpg", "c.jpg"]).1 =
         (runFiles envA fsA ["a.jpg", "c.jpg"]).1 ∧
       (runFiles envA fsA ["a.jpg", "bad.jpg", "c.jpg"]).2.count true = 1 ∧
       (runFiles envA fsA ["a.jpg", "bad.jpg", "c.jpg"]).2.length = 3) := by
  refine ⟨by decide, by decide, ?_⟩
  have h := claim_C4 envA fsA ["a.jpg"] ["c.jpg"] "bad.jpg" (by decide) (by decide)
    (fun b hb => ⟨"corrupt", by rfl⟩) (by decide)
  exact ⟨h.1, h.2.1, h.2.2.1, h.2.2.2⟩

/-! ### Path discovery: worklist traversal over a directory tree -/

/-- A directory tree as seen through `readdirSync`: a file entry, or a
directory entry with its listability (`readdirSync` succeeds or throws) and
its entries. -/
inductive FTree where
  | file (name : String) : FTree
  | dir (name : String) (readable : Bool) (entries : List FTree) : FTree
deriving Repr

mutual
def sizeT : FTree → Nat
  | .file _ => 1
  | .dir _ _ es => 1 + sizeL es
def sizeL : List FTree → Nat
  | [] => 0
  | t :: ts => sizeT t + sizeL ts
end

/-- `path.join(d, n)` for the paths this walk builds. -/
def joinPath (d n : String) : String := if d = "." then n else d ++ "/" ++ n

def isImageName (n : String) : Bool := decide (extLower n ∈ IMAGE_EXTENSIONS)

def dirErrMsg (p : String) : String := "Error reading directory " ++ p

/-- A pending worklist entry: path of the directory, its listability, its
entries. -/
abbrev QItem := String × Bool × List FTree

/-- The image files pushed while scanning one directory's entries. -/
def filesOf (d : String) (es : List FTree) : List String :=
  es.filterMap fun t =>
    match t with
    | .file n => if isImageName n then some (joinPath d n) else none
    | .dir _ _ _ => none

/-- The subdirectories queued while scanning one directory's entries. -/
def dirsOf (d : String) (es : List FTree) : List QItem :=
  es.filterMap fun t =>
    match t with
    | .file _ => none
    | .dir n r sub => some (joinPath d n, r, sub)

def qsize : List QItem → Nat
  | [] => 0
  | (_, _, es) :: q => 1 + sizeL es + qsize q

theorem qsize_append (a b : List QItem) : qsize (a ++ b) = qsize a + qsize b := by
  induction a with
  | nil => simp [qsize]
  | cons it a ih =>
    obtain ⟨p, r, es⟩ := it
    simp [qsize, ih]
    omega

theorem qsize_dirsOf_le (d : String) (es : List FTree) :
    qsize (dirsOf d es) ≤ sizeL es := by
  induction es with
  | nil => simp [dirsOf, qsize]
  | cons t ts ih =>
    cases t with
    | file n =>
      simp only [dirsOf, List.filterMap_cons, sizeL, sizeT]
      simp only [dirsOf] at ih
      omega
    | dir n r sub =>
      simp only [dirsOf, List.filterMap_cons, sizeL, sizeT, qsize]
      simp only [dirsOf] at ih
      omega

/-- The `while (queue.length > 0)` loop of `getAllFilesIterative`: pop a
directory; if it cannot be listed, log the failure and continue; otherwise
push its image files to the result and its subdirectories to the queue. -/
def bfsGo : List QItem → List String → List String → List String × List String
  | [], files, errs => (files, errs)
  | (p, false, _) :: q, files, errs => bfsGo q files (errs ++ [dirErrMsg p])
  | (p, true, es) :: q, files, errs =>
      bfsGo (q ++ dirsOf p es) (files ++ filesOf p es) errs
termination_by q _ _ => qsize q
decreasing_by
  · simp only [qsize]
    omega
  · simp only [qsize, qsize_append]
    have := qsize_dirsOf_le p es
    omega

/-- `getAllFilesIterative('.')` on a root whose listing succeeds or fails
(`rootReadable`) and whose entries are `es`: the discovered image files and
the directory-error log lines, in order. -/
def getAllFilesIterative (rootReadable : Bool) (es : List FTree) :
    List String × List String :=
  bfsGo [(".", rootReadable, es)] [] []

-- Recursive reference collector: the image files reachable through
-- listable directories only.
mutual
def imageFilesT (d : String) : FTree → List String
  | .file n => if isImageName n then [joinPath d n] else []
  | .dir n r sub => cond r (imageFilesL (joinPath d n) sub) []
def imageFilesL (d : String) : List FTree → List String
  | [] => []
  | t :: ts => imageFilesT d t ++ imageFilesL d ts
end

-- Recursive reference collector: the unlistable directories reachable
-- through listable ones.
mutual
def dirErrsT (d : String) : FTree → List String
  | .file _ => []
  | .dir n r sub =>
      cond r (dirErrsL (joinPath d n) sub) [dirErrMsg (joinPath d n)]
def dirErrsL (d : String) : List FTree → List String
  | [] => []
  | t :: ts => dirErrsT d t ++ dirErrsL d ts
end

def itemFiles : QItem → List String
  | (p, r, es) => cond r (imageFilesL p es) []

def itemErrs : QItem → List String
  | (p, r, es) => cond r (dirErrsL p es) [dirErrMsg p]

theorem filesOf_nil (d : String) : filesOf d [] = [] := rfl

theorem dirsOf_nil (d : String) : dirsOf d [] = [] := rfl

theorem filesOf_cons_file (d n : String) (ts : List FTree) :
    filesOf d (.file n :: ts) =
      (if isImageName n then [joinPath d n] else []) ++ filesOf d ts := by
  by_cases hn : isImageName n <;> simp [filesOf, List.filterMap_cons, hn]

theorem filesOf_cons_dir (d n : String) (r : Bool) (sub ts : List FTree) :
    filesOf d (.dir n r sub :: ts) = filesOf d ts := by
  simp [filesOf, List.filterMap_cons]

theorem dirsOf_cons_file (d n : String) (ts : List FTree) :
    dirsOf d (.file n :: ts) = dirsOf d ts := by
  simp [dirsOf, List.filterMap_cons]

theorem dirsOf_cons_dir (d n : String) (r : Bool) (sub ts : List FTree) :
    dirsOf d (.dir n r sub :: ts) = (joinPath d n, r, sub) :: dirsOf d ts := by
  simp [dirsOf, List.filterMap_cons]

theorem imageFilesL_split (d : String) (es : List FTree) (x : String) :
    x ∈ imageFilesL d es ↔
      x ∈ filesOf d es ∨ ∃ it ∈ dirsOf d es, x ∈ itemFiles it := by
  induction es with
  | nil => simp [imageFilesL, filesOf_nil, dirsOf_nil]
  | cons t ts ih =>
    cases t with
    | file n =>
      rw [filesOf_cons_file, dirsOf_cons_file]
      simp only [imageFilesL, imageFilesT, List.mem_append, ih]
      tauto
    | dir n r sub =>
      rw [filesOf_cons_dir, dirsOf_cons_dir, List.exists_mem_cons_iff]
      simp only [imageFilesL, imageFilesT, List.mem_append, ih, itemFiles]
      tauto

theorem dirErrsL_split (d : String) (es : List FTree) (e : String) :
    e ∈ dirErrsL d es ↔ ∃ it ∈ dirsOf d es, e ∈ itemErrs it := by
  induction es with
  | nil => simp [dirErrsL, dirsOf_nil]
  | cons t ts ih =>
    cases t with
    | file n =>
      rw [dirsOf_cons_file]
      simp only [dirErrsL, dirErrsT, List.nil_append, ih]
    | dir n r sub =>
      rw [dirsOf_cons_dir, List.exists_mem_cons_iff]
      simp only [dirErrsL, dirErrsT, List.mem_append, ih, itemErrs]

/-- The worklist loop computes exactly the readable-reachable image files
and the readable-reachable unlistable-directory errors of the queued
items. -/
theorem exists_mem_append_iff {α : Type} (a b : List α) (P : α → Prop) :
    (∃ it ∈ a ++ b, P it) ↔ (∃ it ∈ a, P it) ∨ (∃ it ∈ b, P it) := by
  constructor
  · rintro ⟨it, hit, hp⟩
    rcases List.mem_append.mp hit with h | h
    · exact Or.inl ⟨it, h, hp⟩
    · exact Or.inr ⟨it, h, hp⟩
  · rintro (⟨it, hit, hp⟩ | ⟨it, hit, hp⟩)
    · exact ⟨it, List.mem_append.mpr (Or.inl hit), hp⟩
    · exact ⟨it, List.mem_append.mpr (Or.inr hit), hp⟩

theorem bfsGo_mem (q : List QItem) (files errs : List String) :
    (∀ x, x ∈ (bfsGo q files errs).1 ↔
       x ∈ files ∨ ∃ it ∈ q, x ∈ itemFiles it) ∧
    (∀ e, e ∈ (bfsGo q files errs).2 ↔
       e ∈ errs ∨ ∃ it ∈ q, e ∈ itemErrs it) := by
  induction q, files, errs using bfsGo.induct with
  | case1 files errs => simp [bfsGo]
  | case2 p es q files errs ih =>
    rw [show bfsGo ((p, false, es) :: q) files errs =
      bfsGo q files (errs ++ [dirErrMsg p]) from by rw [bfsGo]]
    constructor
    · intro x
      rw [ih.1 x, List.exists_mem_cons_iff,
        show itemFiles (p, false, es) = [] from rfl]
      simp
    · intro e
      rw [ih.2 e, List.exists_mem_cons_iff,
        show itemErrs (p, false, es) = [dirErrMsg p] from rfl]
      simp only [List.mem_append, List.mem_singleton]
      tauto
  | case3 p es q files errs ih =>
    rw [show bfsGo ((p, true, es) :: q) files errs =
      bfsGo (q ++ dirsOf p es) (files ++ filesOf p es) errs from by rw [bfsGo]]
    constructor
    · intro x
      rw [ih.1 x, List.exists_mem_cons_iff,
        show itemFiles (p, true, es) = imageFilesL p es from rfl,
        imageFilesL_split, exists_mem_append_iff, List.mem_append]
      aesop
    · intro e
      rw [ih.2 e, List.exists_mem_cons_iff,
        show itemErrs (p, true, es) = dirErrsL p es from rfl,
        dirErrsL_split, exists_mem_append_iff]
      aesop

/-- `Prune d es es2 bp` holds when `es2` is the entry list `es` (scanned
under directory path `d`) with exactly one unlistable directory removed —
that directory sits at an arbitrary position and arbitrary depth, reachable
through listable directories only, and its joined path is `bp`. -/
inductive Prune : String → List FTree → List FTree → String → Prop where
  | drop (d n : String) (badEs ts : List FTree) :
      Prune d (FTree.dir n false badEs :: ts) ts (joinPath d n)
  | descend (d n : String) (sub sub2 ts : List FTree) (bp : String) :
      Prune (joinPath d n) sub sub2 bp →
      Prune d (FTree.dir n true sub :: ts) (FTree.dir n true sub2 :: ts) bp
  | skip (d : String) (t : FTree) (ts ts2 : List FTree) (bp : String) :
      Prune d ts ts2 bp → Prune d (t :: ts) (t :: ts2) bp

/-- Removing one reachable unlistable directory: its error is among the
collected directory errors, and the collected image files are unchanged. -/
theorem prune_spec (d : String) (es es2 : List FTree) (bp : String)
    (h : Prune d es es2 bp) :
    dirErrMsg bp ∈ dirErrsL d es ∧
      ∀ x, (x ∈ imageFilesL d es ↔ x ∈ imageFilesL d es2) := by
  induction h with
  | drop d n badEs ts =>
    constructor
    · simp [dirErrsL, dirErrsT]
    · intro x
      simp [imageFilesL, imageFilesT]
  | descend d n sub sub2 ts bp hp ih =>
    constructor
    · simp only [dirErrsL, dirErrsT, cond_true, List.mem_append]
      exact Or.inl ih.1
    · intro x
      simp only [imageFilesL, imageFilesT, cond_true, List.mem_append, ih.2 x]
  | skip d t ts ts2 bp hp ih =>
    constructor
    · simp only [dirErrsL, List.mem_append]
      exact Or.inr ih.1
    · intro x
      simp only [imageFilesL, List.mem_append, ih.2 x]

/-- C8: for every directory tree in which some subdirectory — at any
position and any depth reachable through listable directories — cannot be
listed, the walk logs that listing failure and still returns exactly the
image files of the same tree with the broken subdirectory removed: only the
affected subtree is skipped, every other listable directory is still
discovered, and the walk never aborts. -/
theorem claim_C8 (es es2 : List FTree) (bp : String) (h : Prune "." es es2 bp) :
    dirErrMsg bp ∈ (getAllFilesIterative true es).2 ∧
    ∀ x, (x ∈ (getAllFilesIterative true es).1 ↔
       x ∈ (getAllFilesIterative true es2).1) := by
  have hs := prune_spec "." es es2 bp h
  constructor
  · show dirErrMsg bp ∈ (bfsGo [(".", true, es)] [] []).2
    rw [(bfsGo_mem [(".", true, es)] [] []).2]
    exact Or.inr ⟨(".", true, es), by simp, by simpa [itemErrs] using hs.1⟩
  · intro x
    show x ∈ (bfsGo [(".", true, es)] [] []).1 ↔
      x ∈ (bfsGo [(".", true, es2)] [] []).1
    rw [(bfsGo_mem [(".", true, es)] [] []).1, (bfsGo_mem [(".", true, es2)] [] []).1]
    simp only [List.mem_singleton, List.not_mem_nil, false_or]
    constructor
    · rintro ⟨it, rfl, hx⟩
      exact ⟨(".", true, es2), rfl,
        by simpa [itemFiles] using (hs.2 x).mp (by simpa [itemFiles] using hx)⟩
    · rintro ⟨it, rfl, hx⟩
      exact ⟨(".", true, es), rfl,
        by simpa [itemFiles] using (hs.2 x).mpr (by simpa [itemFiles] using hx)⟩

/-- The tree `a.jpg, d1/(bad(unlistable: hidden.jpg), b.jpg)`: the broken
directory sits at depth two. -/
def esC : List FTree :=
  [FTree.file "a.jpg",
   FTree.dir "d1" true
     [FTree.dir "bad" false [FTree.file "hidden.jpg"], FTree.file "b.jpg"]]

/-- `esC` with the unlistable directory removed. -/
def esC2 : List FTree :=
  [FTree.file "a.jpg", FTree.dir "d1" true [FTree.file "b.jpg"]]

theorem claim_C8_witness :
    dirErrMsg "d1/bad" ∈ (getAllFilesIterative true esC).2 ∧
      ("d1/b.jpg" ∈ (getAllFilesIterative true esC).1 ↔
        "d1/b.jpg" ∈ (getAllFilesIterative true esC2).1) := by
  have hp : Prune "." esC esC2 "d1/bad" := by
    have hj1 : joinPath "." "d1" = "d1" := by decide
    have hj2 : joinPath "d1" "bad" = "d1/bad" := by decide
    apply Prune.skip
    apply Prune.descend
    rw [hj1, ← hj2]
    exact Prune.drop "d1" "bad" [FTree.file "hidden.jpg"] [FTree.file "b.jpg"]
  exact ⟨(claim_C8 esC esC2 "d1/bad" hp).1, (claim_C8 esC esC2 "d1/bad" hp).2 "d1/b.jpg"⟩

/-! ### Glob-based discovery

Modelled from the spec: the glob variant matches each pattern
`**/\x2a<ext>` with `nocase: true` and the library's default dot handling —
a pattern segment without a leading literal dot never matches an entry name
that starts with a dot, `**` does not descend into dot-directories, the
basename must end (case-insensitively) with the extension, and directories
matching the pattern are returned as well as files.  The glob library
itself is an external dependency, so its documented matching semantics are
embedded here. -/

def dotInitial (n : String) : Bool :=
  match n.data with
  | '.' :: _ => true
  | _ => false

def lowerData (n : String) : List Char := n.data.map Char.toLower

/-- Does `**/\x2a<ext>` (nocase, default dot rule) match an entry name? -/
def nameMatches (ext n : String) : Bool :=
  !dotInitial n && ext.data.isSuffixOf (lowerData n)

mutual
def globT (ext d : String) : FTree → List String
  | .file n => if nameMatches ext n then [joinPath d n] else []
  | .dir n r sub =>
      (if nameMatches ext n then [joinPath d n] else []) ++
      cond (!dotInitial n && r) (globL ext (joinPath d n) sub) []
def globL (ext d : String) : List FTree → List String
  | [] => []
  | t :: ts => globT ext d t ++ globL ext d ts
end

/-- The glob variant's discovery: one glob per recognized extension,
results concatenated. -/
def globDiscovery (es : List FTree) : List String :=
  (IMAGE_EXTENSIONS.map fun ext => globL ext "." es).flatten

-- Trees on which the two discovery strategies are compared: no entry name
-- starts with a dot or contains a slash, and no directory name carries a
-- recognized image extension.
mutual
def goodT : FTree → Bool
  | .file n => !dotInitial n && !(decide (('/' : Char) ∈ n.data))
  | .dir n _ sub =>
      !dotInitial n && !(decide (('/' : Char) ∈ n.data)) &&
        !isImageName n && goodL sub
def goodL : List FTree → Bool
  | [] => true
  | t :: ts => goodT t && goodL ts
end

/-! ### Character and list facts about `extname` -/

theorem toLower_eq_dot {c : Char} : c.toLower = '.' ↔ c = '.' := by
  constructor
  · intro h
    by_cases hc : c.toNat ≥ 65 ∧ c.toNat ≤ 90
    · exfalso
      have h1 : c.toLower = Char.ofNat (c.toNat + 32) := by
        simp only [Char.toLower, if_pos hc]
      rw [h] at h1
      obtain ⟨h65, h90⟩ := hc
      set m := c.toNat with hm
      interval_cases m <;> exact absurd h1 (by decide)
    · have h1 : c.toLower = c := by
        simp only [Char.toLower, if_neg hc]
      rw [h1] at h
      exact h
  · intro h
    subst h
    decide

theorem takeWhile_append_stop (p : Char → Bool) (xs ys : List Char) (c : Char)
    (hall : ∀ a ∈ xs, p a = true) (hc : p c = false) :
    (xs ++ c :: ys).takeWhile p = xs := by
  induction xs with
  | nil => simp [List.takeWhile_cons, hc]
  | cons a xs ih =>
    simp only [List.cons_append, List.takeWhile_cons, hall a (by simp)]
    rw [ih (fun b hb => hall b (by simp [hb]))]
    simp

theorem dropWhile_head_false (p : Char → Bool) (l : List Char) (c : Char)
    (rest : List Char) (h : l.dropWhile p = c :: rest) : p c = false := by
  induction l with
  | nil => simp [List.dropWhile] at h
  | cons a l ih =>
    rw [List.dropWhile_cons] at h
    by_cases hp : p a
    · rw [if_pos hp] at h
      exact ih h
    · rw [if_neg hp] at h
      cases h
      simpa using hp

theorem basenameChars_suffix (l : List Char) : basenameChars l <:+ l := by
  unfold basenameChars
  have h1 : l.reverse.takeWhile (fun c => c != '/') <+: l.reverse :=
    List.takeWhile_prefix _
  have h2 : ((l.reverse.takeWhile (fun c => c != '/')).reverse).reverse <+:
      l.reverse := by simpa using h1
  exact List.reverse_prefix.mp h2

theorem basenameChars_eq_self (l : List Char) (h : ('/' : Char) ∉ l) :
    basenameChars l = l := by
  unfold basenameChars
  rw [List.takeWhile_eq_self_iff.mpr, List.reverse_reverse]
  intro x hx
  have : x ≠ '/' := fun he => h (by rw [← he] at *; exact List.mem_reverse.mp hx)
  simpa using this

theorem extnameChars_suffix (l : List Char) : extnameChars l <:+ l := by
  unfold extnameChars
  by_cases hc : ((basenameChars l).reverse.takeWhile (fun c => c != '.')).length + 1 <
      (basenameChars l).length
  · rw [if_pos hc]
    have hb : basenameChars l <:+ l := basenameChars_suffix l
    have hsplit : (basenameChars l).reverse.takeWhile (fun c => c != '.') ++
        (basenameChars l).reverse.dropWhile (fun c => c != '.') =
        (basenameChars l).reverse :=
      List.takeWhile_append_dropWhile (fun c => c != '.') (basenameChars l).reverse
    have hdw : (basenameChars l).reverse.dropWhile (fun c => c != '.') ≠ [] := by
      intro h0
      rw [h0, List.append_nil] at hsplit
      have := congrArg List.length hsplit
      simp at this
      omega
    obtain ⟨c0, rest, hdr⟩ : ∃ c0 rest,
        (basenameChars l).reverse.dropWhile (fun c => c != '.') = c0 :: rest := by
      cases h0 : (basenameChars l).reverse.dropWhile (fun c => c != '.') with
      | nil => exact absurd h0 hdw
      | cons c0 rest => exact ⟨c0, rest, rfl⟩
    have hc0 : c0 = '.' := by
      have := dropWhile_head_false _ _ _ _ hdr
      simpa using this
    subst hc0
    rw [hdr] at hsplit
    have hbase : basenameChars l =
        rest.reverse ++ '.' ::
          ((basenameChars l).reverse.takeWhile (fun c => c != '.')).reverse := by
      have := congrArg List.reverse hsplit
      simpa using this.symm
    exact List.IsSuffix.trans ⟨rest.reverse, hbase.symm⟩ hb
  · rw [if_neg hc]
    exact List.nil_suffix

/-- The characteristic property of `extname` + `toLowerCase` on a name with
no leading dot and no slash: its lowercase form ends with `'.' :: tl`
(`tl` nonempty, dot-free, lowercase) exactly when the computed lowercase
extension is `'.' :: tl`. -/
theorem suffix_extLower (n : String) (tl : List Char)
    (hd0 : dotInitial n = false) (hsl : ('/' : Char) ∉ n.data)
    (htld : ('.' : Char) ∉ tl) :
    ('.' :: tl) <:+ lowerData n ↔ (extLower n).data = '.' :: tl := by
  constructor
  · intro hsuf
    obtain ⟨pre, hpre⟩ := hsuf
    obtain ⟨a, rest, hsplit, hmapa, hmaprest⟩ :=
      List.map_eq_append_iff.mp (hpre.symm : lowerData n = pre ++ '.' :: tl)
    obtain ⟨c0, b, hbsplit, hc0, hmapb⟩ := List.map_eq_cons_iff.mp hmaprest
    have hc0d : c0 = '.' := toLower_eq_dot.mp hc0
    subst hc0d
    subst hbsplit
    have hbnd : ('.' : Char) ∉ b := by
      intro hb
      exact htld (by rw [← hmapb]; exact List.mem_map.mpr ⟨'.', hb, by decide⟩)
    have hane : a ≠ [] := by
      rintro rfl
      rw [List.nil_append] at hsplit
      unfold dotInitial at hd0
      rw [hsplit] at hd0
      simp at hd0
    have hbase : basenameChars n.data = n.data := basenameChars_eq_self n.data hsl
    have hrev : n.data.reverse = b.reverse ++ '.' :: a.reverse := by
      rw [hsplit]
      simp
    have htake : n.data.reverse.takeWhile (fun c => c != '.') = b.reverse := by
      rw [hrev]
      refine takeWhile_append_stop _ _ _ _ ?_ (by decide)
      intro x hx
      have : x ≠ '.' := fun he => hbnd (by rw [← he] at *; exact List.mem_reverse.mp hx)
      simpa using this
    have hlen : b.reverse.length + 1 < n.data.length := by
      rw [hsplit]
      have := List.length_pos.mpr hane
      simp [List.length_append]
      omega
    show (extnameChars n.data).map Char.toLower = '.' :: tl
    simp only [extnameChars]
    rw [hbase, htake, if_pos hlen]
    simp [hmapb]
  · intro hE
    have h1 : extnameChars n.data <:+ n.data := extnameChars_suffix n.data
    have h2 : (extnameChars n.data).map Char.toLower <:+ lowerData n := by
      obtain ⟨t, ht⟩ := h1
      exact ⟨t.map Char.toLower, by rw [← List.map_append, ht]; rfl⟩
    rw [show (extnameChars n.data).map Char.toLower = (extLower n).data from rfl,
      hE] at h2
    exact h2

/-- On a name with no leading dot and no slash, some recognized extension
glob-matches it exactly when its lowercase `extname` is recognized. -/
theorem nameMatches_iff (n : String) (hd0 : dotInitial n = false)
    (hsl : ('/' : Char) ∉ n.data) :
    (∃ ext ∈ IMAGE_EXTENSIONS, nameMatches ext n = true) ↔
      isImageName n = true := by
  have step : ∀ (ext : String) (tl : List Char), ext.data = '.' :: tl →
      ('.' : Char) ∉ tl → ext.data <:+ lowerData n → extLower n = ext := by
    intro ext tl hdata htld hsuf
    apply String.ext
    rw [hdata] at hsuf ⊢
    exact (suffix_extLower n tl hd0 hsl htld).mp hsuf
  constructor
  · rintro ⟨ext, hmem, hm⟩
    unfold nameMatches at hm
    rw [hd0] at hm
    simp only [Bool.not_false, Bool.true_and] at hm
    rw [List.isSuffixOf_iff_suffix] at hm
    unfold isImageName
    rw [decide_eq_true_iff]
    fin_cases hmem
    · rw [step ".jpg" ['j', 'p', 'g'] rfl (by decide) hm]; decide
    · rw [step ".jpeg" ['j', 'p', 'e', 'g'] rfl (by decide) hm]; decide
    · rw [step ".png" ['p', 'n', 'g'] rfl (by decide) hm]; decide
    · rw [step ".gif" ['g', 'i', 'f'] rfl (by decide) hm]; decide
    · rw [step ".webp" ['w', 'e', 'b', 'p'] rfl (by decide) hm]; decide
    · rw [step ".svg" ['s', 'v', 'g'] rfl (by decide) hm]; decide
  · intro hin
    unfold isImageName at hin
    rw [decide_eq_true_iff] at hin
    refine ⟨extLower n, hin, ?_⟩
    unfold nameMatches
    rw [hd0]
    simp only [Bool.not_false, Bool.true_and]
    rw [List.isSuffixOf_iff_suffix]
    simp only [IMAGE_EXTENSIONS, List.mem_cons, List.mem_singleton,
      List.not_mem_nil, or_false] at hin
    rcases hin with h | h | h | h | h | h <;>
      · rw [h]
        exact (suffix_extLower n _ hd0 hsl (by decide)).mpr (by rw [h])

theorem sizeT_pos (t : FTree) : 1 ≤ sizeT t := by
  cases t <;> simp [sizeT]

theorem mem_if_singleton {b : Bool} {x y : String} :
    x ∈ (if b then [y] else []) ↔ b = true ∧ x = y := by
  cases b <;> simp

/-- On a tree with no dot-initial or slash-containing names and no
image-named directories, the union of the per-extension globs contains
exactly the readable-reachable image files. -/
theorem glob_iter_aux : ∀ (N : Nat) (es : List FTree) (d : String),
    sizeL es ≤ N → goodL es = true → ∀ x,
    ((∃ ext ∈ IMAGE_EXTENSIONS, x ∈ globL ext d es) ↔ x ∈ imageFilesL d es) := by
  intro N
  induction N using Nat.strong_induction_on with
  | _ N ih =>
    intro es d hsz hgood x
    cases es with
    | nil => simp [globL, imageFilesL]
    | cons t ts =>
      have hgt : goodT t = true ∧ goodL ts = true := by
        have h0 := hgood
        simp only [goodL, Bool.and_eq_true] at h0
        exact h0
      have hszt : sizeL ts < N := by
        have h1 : 1 ≤ sizeT t := sizeT_pos t
        simp only [sizeL] at hsz
        omega
      have htail := ih (sizeL ts) hszt ts d (le_refl _) hgt.2 x
      cases t with
      | file nm =>
        have hcond : dotInitial nm = false ∧ ('/' : Char) ∉ nm.data := by
          have h0 := hgt.1
          simp only [goodT, Bool.and_eq_true, Bool.not_eq_true'] at h0
          refine ⟨h0.1, ?_⟩
          simpa using h0.2
        have hglobeq : ∀ ext, globL ext d (.file nm :: ts) =
            (if nameMatches ext nm then [joinPath d nm] else []) ++ globL ext d ts := by
          intro ext
          simp [globL, globT]
        have himgeq : imageFilesL d (.file nm :: ts) =
            (if isImageName nm then [joinPath d nm] else []) ++ imageFilesL d ts := by
          simp [imageFilesL, imageFilesT]
        rw [himgeq]
        constructor
        · rintro ⟨ext, hmem, hx⟩
          rw [hglobeq ext] at hx
          rcases List.mem_append.mp hx with hx | hx
          · rw [mem_if_singleton] at hx
            rw [List.mem_append, mem_if_singleton]
            exact Or.inl ⟨(nameMatches_iff nm hcond.1 hcond.2).mp ⟨ext, hmem, hx.1⟩, hx.2⟩
          · exact List.mem_append.mpr (Or.inr (htail.mp ⟨ext, hmem, hx⟩))
        · intro hx
          rcases List.mem_append.mp hx with hx | hx
          · rw [mem_if_singleton] at hx
            obtain ⟨ext, hmem, hm⟩ := (nameMatches_iff nm hcond.1 hcond.2).mpr hx.1
            exact ⟨ext, hmem, by
              rw [hglobeq ext, List.mem_append, mem_if_singleton]
              exact Or.inl ⟨hm, hx.2⟩⟩
          · obtain ⟨ext, hmem, hm⟩ := htail.mpr hx
            exact ⟨ext, hmem, by rw [hglobeq ext, List.mem_append]; exact Or.inr hm⟩
      | dir nm r sub =>
        have hcond : (dotInitial nm = false ∧ ('/' : Char) ∉ nm.data) ∧
            isImageName nm = false ∧ goodL sub = true := by
          have h0 := hgt.1
          simp only [goodT, Bool.and_eq_true, Bool.not_eq_true'] at h0
          obtain ⟨⟨⟨h1, h2⟩, h3⟩, h4⟩ := h0
          refine ⟨⟨h1, by simpa using h2⟩, by simpa using h3, h4⟩
        have hnm : ∀ ext ∈ IMAGE_EXTENSIONS, nameMatches ext nm = false := by
          intro ext hmem
          by_contra hcon
          have hmt : nameMatches ext nm = true := by simpa using hcon
          have := (nameMatches_iff nm hcond.1.1 hcond.1.2).mp ⟨ext, hmem, hmt⟩
          rw [hcond.2.1] at this
          exact absurd this (by decide)
        have hsub : sizeL sub < N := by
          simp only [sizeL, sizeT] at hsz
          omega
        have hsubiff := ih (sizeL sub) hsub sub (joinPath d nm) (le_refl _)
          hcond.2.2 x
        have hglobeq : ∀ ext ∈ IMAGE_EXTENSIONS, globL ext d (.dir nm r sub :: ts) =
            cond r (globL ext (joinPath d nm) sub) [] ++ globL ext d ts := by
          intro ext hmem
          simp [globL, globT, hnm ext hmem, hcond.1.1]
        have himgeq : imageFilesL d (.dir nm r sub :: ts) =
            cond r (imageFilesL (joinPath d nm) sub) [] ++ imageFilesL d ts := by
          simp [imageFilesL, imageFilesT]
        rw [himgeq]
        cases r with
        | false =>
          simp only [cond_false, List.nil_append]
          constructor
          · rintro ⟨ext, hmem, hx⟩
            rw [hglobeq ext hmem] at hx
            simp only [cond_false, List.nil_append] at hx
            exact htail.mp ⟨ext, hmem, hx⟩
          · intro hx
            obtain ⟨ext, hmem, hm⟩ := htail.mpr hx
            exact ⟨ext, hmem, by rw [hglobeq ext hmem]; simpa using hm⟩
        | true =>
          simp only [cond_true]
          constructor
          · rintro ⟨ext, hmem, hx⟩
            rw [hglobeq ext hmem] at hx
            simp only [cond_true] at hx
            rcases List.mem_append.mp hx with hx | hx
            · exact List.mem_append.mpr (Or.inl (hsubiff.mp ⟨ext, hmem, hx⟩))
            · exact List.mem_append.mpr (Or.inr (htail.mp ⟨ext, hmem, hx⟩))
          · intro hx
            rcases List.mem_append.mp hx with hx | hx
            · obtain ⟨ext, hmem, hm⟩ := hsubiff.mpr hx
              exact ⟨ext, hmem, by
                rw [hglobeq ext hmem]
                exact List.mem_append.mpr (Or.inl (by simpa using hm))⟩
            · obtain ⟨ext, hmem, hm⟩ := htail.mpr hx
              exact ⟨ext, hmem, by
                rw [hglobeq ext hmem]
                exact List.mem_append.mpr (Or.inr hm)⟩

/-- C6 (amended): on a static tree in which no entry name starts with a dot
or contains a slash and no directory name carries a recognized image
extension, the per-extension case-insensitive glob discovery and the
worklist traversal return the same set of image file paths.  (As stated for
every tree the claim fails: glob's default dot rule hides dot entries that
the worklist traversal returns — see the counterexample.) -/
theorem claim_C6 (es : List FTree) (hgood : goodL es = true) (x : String) :
    x ∈ (getAllFilesIterative true es).1 ↔ x ∈ globDiscovery es := by
  have hbfs : x ∈ (getAllFilesIterative true es).1 ↔ x ∈ imageFilesL "." es := by
    show x ∈ (bfsGo [(".", true, es)] [] []).1 ↔ _
    rw [(bfsGo_mem [(".", true, es)] [] []).1]
    simp only [List.not_mem_nil, false_or, List.mem_singleton]
    constructor
    · rintro ⟨it, rfl, hx⟩
      simpa [itemFiles] using hx
    · intro hx
      exact ⟨(".", true, es), rfl, by simpa [itemFiles] using hx⟩
  have hglob : x ∈ globDiscovery es ↔
      ∃ ext ∈ IMAGE_EXTENSIONS, x ∈ globL ext "." es := by
    unfold globDiscovery
    simp only [List.mem_flatten, List.mem_map]
    constructor
    · rintro ⟨l, ⟨ext, hmem, rfl⟩, hx⟩
      exact ⟨ext, hmem, hx⟩
    · rintro ⟨ext, hmem, hx⟩
      exact ⟨globL ext "." es, ⟨ext, hmem, rfl⟩, hx⟩
  rw [hbfs, hglob]
  exact (glob_iter_aux (sizeL es) es "." (le_refl _) hgood x).symm

/-- The claim as stated fails: a dotfile with a recognized extension is
found by the worklist traversal but not by the globs (glob's default dot
rule), so the two strategies disagree on this one-file tree. -/
theorem claim_C6_counterexample :
    ".x.jpg" ∈ (getAllFilesIterative true [FTree.file ".x.jpg"]).1 ∧
      ".x.jpg" ∉ globDiscovery [FTree.file ".x.jpg"] := by
  constructor
  · have h : (getAllFilesIterative true [FTree.file ".x.jpg"]).1 = [".x.jpg"] := by
      simp [getAllFilesIterative, bfsGo, dirsOf, filesOf, List.filterMap_cons,
        joinPath, show isImageName ".x.jpg" = true from by decide]
    rw [h]
    simp
  · decide

def esW : List FTree :=
  [FTree.file "a.jpg", FTree.dir "sub" true [FTree.file "b.PNG", FTree.file "c.txt"]]

theorem claim_C6_witness :
    goodL esW = true ∧
      ("sub/b.png" ∈ (getAllFilesIterative true esW).1 ↔
        "sub/b.png" ∈ globDiscovery esW) :=
  ⟨by decide, claim_C6 esW (by decide) "sub/b.png"⟩

/-! ### Process exit codes -/

/-- The glob variant's `findAndProcessImages` followed by process exit: a
discovery failure is caught by the orchestrator's own `catch`, which only
logs and returns normally, so the outer `.catch` that would call
`process.exit(1)` never fires. -/
def mainExitGlob (env : Env) (fs : FS) (globRes : Except String (List String)) : Nat :=
  match globRes with
  | .error _ => 0
  | .ok files =>
    let _ := runFiles env fs files
    0

/-- The worklist variant's `try` body: every operation in it is total in
this model — directory-listing errors are caught inside
`getAllFilesIterative` (even for the root) and per-file errors inside
`processImage` — so it always returns normally. -/
def mainBodyIter (env : Env) (rootReadable : Bool) (es : List FTree) (fs : FS) :
    Except String (FS × List Bool) :=
  Except.ok (runBatched env fs (getAllFilesIterative rootReadable es).1)

/-- The worklist variant's exit code: `process.exit(1)` exactly when the
`try` body throws. -/
def mainExitIter (env : Env) (rootReadable : Bool) (es : List FTree) (fs : FS) : Nat :=
  match mainBodyIter env rootReadable es fs with
  | .ok _ => 0
  | .error _ => 1

/-- C5 (amended): the run always exits 0 in both variants — per-file
failures are contained, a glob discovery error is caught and only logged,
and an unlistable root is downgraded to a logged directory-error line with
empty discovery; the non-zero exit paths are unreachable because every
modeled operation inside the guarded blocks is total. -/
theorem claim_C5 (env : Env) (fs : FS) (globRes : Except String (List String))
    (rootReadable : Bool) (es : List FTree) :
    mainExitGlob env fs globRes = 0 ∧ mainExitIter env rootReadable es fs = 0 ∧
      (getAllFilesIterative false es).1 = [] ∧
      (getAllFilesIterative false es).2 = [dirErrMsg "."] := by
  refine ⟨?_, rfl, ?_, ?_⟩
  · cases globRes <;> rfl
  · simp [getAllFilesIterative, bfsGo]
  · simp [getAllFilesIterative, bfsGo]

/-- The claim as stated fails: a catastrophic discovery failure (the glob
promise rejecting; the root directory unlistable) still exits 0 in both
variants instead of non-zero. -/
theorem claim_C5_counterexample :
    mainExitGlob envA fsA (.error "ENOENT") = 0 ∧
      mainExitIter envA false [] fsA = 0 ∧
      (getAllFilesIterative false []).2 = [dirErrMsg "."] := by
  refine ⟨rfl, rfl, ?_⟩
  simp [getAllFilesIterative, bfsGo]

end OptImages
